import Mathlib

/-!
Verification development for the ExploreASL_GUI DICOM import orchestration
(`src/xASL_GUI_Importer.py`).  The Python code is shallowly embedded below:
pure computations become Lean functions, the Qt signal/slot protocol between
the `Importer_Worker` instances and the `xASL_GUI_Importer` coordinator
becomes explicit state passing over small state records, and fallible code
returns `Except`.
-/

namespace ExploreASL

/-! ## JobPartitioner: `run_importer` lines 889-919

`run_importer` computes `NTHREADS = min([len(subject_dirs), 4])` and hands
each worker `flatten(subjects_subset)` for `subjects_subset` ranging over
`more_itertools.divide(NTHREADS, subject_dirs)`.  `subject_dirs` is a
`List[Tuple[Path]]`: a list of per-subject groups of leaf dicom directories.
`more_itertools.divide(n, seq)` computes `q, r = divmod(len(seq), n)` and
returns `n` chunks, the first `r` of size `q + 1`, the rest of size `q`.
-/

/-- Chunk sizes produced by `more_itertools.divide`: with `q, r = divmod(len, n)`,
`r` chunks of size `q + 1` followed by `n - r` chunks of size `q`. -/
def divideSizes (len n : Nat) : List Nat :=
  List.replicate (len % n) (len / n + 1) ++ List.replicate (n - len % n) (len / n)

/-- Split `seq` into consecutive chunks of the given sizes. -/
def divideChunks : List α → List Nat → List (List α)
  | _, [] => []
  | seq, s :: rest => seq.take s :: divideChunks (seq.drop s) rest

/-- Embedding of `more_itertools.divide(n, seq)`. -/
def divide (n : Nat) (seq : List α) : List (List α) :=
  divideChunks seq (divideSizes seq.length n)

/-- Embedding of the batch construction in `run_importer`: `NTHREADS =
min([len(subject_dirs), max_workers])` chunks from `divide`, each flattened
(`flatten(subjects_subset)`) into the list of dicom directories handed to one
`Importer_Worker`.  In the source `max_workers` is the constant `4`. -/
def partitionBatches (subject_dirs : List (List α)) (max_workers : Nat) : List (List α) :=
  (divide (min subject_dirs.length max_workers) subject_dirs).map List.flatten

theorem divideChunks_join (seq : List α) (sizes : List Nat) :
    (divideChunks seq sizes).flatten = seq.take sizes.sum := by
  induction sizes generalizing seq with
  | nil => simp [divideChunks]
  | cons s rest ih =>
      simp [divideChunks, ih, List.sum_cons, List.take_add]

theorem divideSizes_sum (len n : Nat) (hn : 1 ≤ n) : (divideSizes len n).sum = len := by
  have hmod : len % n < n := Nat.mod_lt _ hn
  have hdm : n * (len / n) + len % n = len := Nat.div_add_mod len n
  have hle : (len % n) * (len / n) ≤ n * (len / n) :=
    Nat.mul_le_mul_right _ (Nat.le_of_lt hmod)
  simp only [divideSizes, List.sum_append, List.sum_replicate, smul_eq_mul]
  rw [Nat.mul_succ, Nat.sub_mul]
  omega

theorem divideChunks_length (seq : List α) (sizes : List Nat) :
    (divideChunks seq sizes).length = sizes.length := by
  induction sizes generalizing seq with
  | nil => simp [divideChunks]
  | cons s rest ih => simp [divideChunks, ih]

theorem divide_join (n : Nat) (seq : List α) (hn : 1 ≤ n) :
    (divide n seq).flatten = seq := by
  rw [divide, divideChunks_join, divideSizes_sum _ _ hn, List.take_length]

theorem divideChunks_map_length (seq : List α) (sizes : List Nat)
    (h : sizes.sum ≤ seq.length) :
    (divideChunks seq sizes).map List.length = sizes := by
  induction sizes generalizing seq with
  | nil => simp [divideChunks]
  | cons s rest ih =>
      simp only [List.sum_cons] at h
      simp only [divideChunks, List.map_cons, List.length_take]
      rw [min_eq_left (by omega), ih _ (by simp [List.length_drop]; omega)]

theorem divide_length (n : Nat) (seq : List α) (hn : 1 ≤ n) :
    (divide n seq).length = n := by
  have hmod : seq.length % n < n := Nat.mod_lt _ hn
  rw [divide, divideChunks_length]
  simp only [divideSizes, List.length_append, List.length_replicate]
  omega

theorem divide_sizes_mem (n : Nat) (seq : List α) (hn : 1 ≤ n)
    (b : List α) (hb : b ∈ divide n seq) :
    b.length = seq.length / n ∨ b.length = seq.length / n + 1 := by
  have hsum : (divideSizes seq.length n).sum = seq.length := divideSizes_sum _ _ hn
  have hmap : (divideChunks seq (divideSizes seq.length n)).map List.length
      = divideSizes seq.length n :=
    divideChunks_map_length _ _ (by rw [hsum])
  have hmem : b.length ∈ divideSizes seq.length n := by
    rw [← hmap]
    exact List.mem_map_of_mem _ hb
  rcases List.mem_append.mp hmem with h | h
  · right; exact List.eq_of_mem_replicate h
  · left; exact List.eq_of_mem_replicate h

theorem flatten_map_flatten (L : List (List (List α))) :
    (L.map List.flatten).flatten = L.flatten.flatten := by
  induction L with
  | nil => rfl
  | cons g rest ih => simp [ih]

/-- Claim C3: for every non-empty nested sequence of enumerated leaf
directories and every `max_workers ≥ 1`, the flattened batches handed to the
workers by `run_importer` concatenate back to exactly the full enumerated
leaf sequence (so every leaf occurs, with its original multiplicity), and
when the enumerated leaves are distinct no leaf appears in two batches. -/
theorem run_importer_batches_partition_leaves (subject_dirs : List (List Nat))
    (max_workers : Nat) (hne : subject_dirs ≠ []) (hw : 1 ≤ max_workers) :
    (partitionBatches subject_dirs max_workers).flatten = subject_dirs.flatten ∧
      (subject_dirs.flatten.Nodup →
        (partitionBatches subject_dirs max_workers).Pairwise List.Disjoint) := by
  have hk : 1 ≤ min subject_dirs.length max_workers := by
    have : 1 ≤ subject_dirs.length := List.length_pos.mpr hne
    omega
  have hflat : (partitionBatches subject_dirs max_workers).flatten
      = subject_dirs.flatten := by
    rw [partitionBatches, flatten_map_flatten, divide_join _ _ hk]
  refine ⟨hflat, fun hnd => ?_⟩
  have : (partitionBatches subject_dirs max_workers).flatten.Nodup := by
    rw [hflat]; exact hnd
  exact (List.nodup_flatten.mp this).2

theorem run_importer_batches_partition_leaves_witness :
    ([[10, 11], [12]] ≠ ([] : List (List Nat))) ∧ 1 ≤ 2 ∧
      ((partitionBatches [[10, 11], [12]] 2).flatten = [[10, 11], [12]].flatten ∧
        (([[10, 11], [12]] : List (List Nat)).flatten.Nodup →
          (partitionBatches [[10, 11], [12]] 2).Pairwise List.Disjoint)) :=
  ⟨by decide, by decide,
    run_importer_batches_partition_leaves [[10, 11], [12]] 2 (by decide) (by decide)⟩

/-- Claim C4 counterexample: the claim asserts the worker-batch sizes,
measured in leaf directories, differ by at most one.  With the enumerated
(grouped) leaves `[[0, 1, 2], [3]]` and `max_workers = 2`,
`run_importer` makes two batches of flattened sizes 3 and 1. -/
theorem run_importer_batches_c4_counterexample :
    ¬ (((partitionBatches [[0, 1, 2], [3]] 2).length
          = min 2 ([[0, 1, 2], [3]] : List (List Nat)).flatten.length) ∧
        ∀ b1 ∈ partitionBatches [[0, 1, 2], [3]] 2,
          ∀ b2 ∈ partitionBatches [[0, 1, 2], [3]] 2,
            b1.length ≤ b2.length + 1) := by
  decide

/-- Claim C4 (amended): the worker count equals `min(max_workers, number of
enumerated subject groups)`, and batch sizes measured in subject groups (the
units `more_itertools.divide` distributes) differ by at most one; measured in
flattened leaf directories the sizes can differ by more than one. -/
theorem run_importer_batches_balanced (subject_dirs : List (List Nat))
    (max_workers : Nat) (hne : subject_dirs ≠ []) (hw : 1 ≤ max_workers) :
    (partitionBatches subject_dirs max_workers).length
        = min subject_dirs.length max_workers ∧
      ∀ c1 ∈ divide (min subject_dirs.length max_workers) subject_dirs,
        ∀ c2 ∈ divide (min subject_dirs.length max_workers) subject_dirs,
          c1.length ≤ c2.length + 1 := by
  have hk : 1 ≤ min subject_dirs.length max_workers := by
    have : 1 ≤ subject_dirs.length := List.length_pos.mpr hne
    omega
  constructor
  · rw [partitionBatches, List.length_map, divide_length _ _ hk]
  · intro c1 h1 c2 h2
    rcases divide_sizes_mem _ _ hk c1 h1 with e1 | e1 <;>
      rcases divide_sizes_mem _ _ hk c2 h2 with e2 | e2 <;> omega

theorem run_importer_batches_balanced_witness :
    ([[10, 11], [12]] ≠ ([] : List (List Nat))) ∧ 1 ≤ 2 ∧
      ((partitionBatches [[10, 11], [12]] 2).length
          = min ([[10, 11], [12]] : List (List Nat)).length 2 ∧
        ∀ c1 ∈ divide (min ([[10, 11], [12]] : List (List Nat)).length 2) [[10, 11], [12]],
          ∀ c2 ∈ divide (min ([[10, 11], [12]] : List (List Nat)).length 2) [[10, 11], [12]],
            c1.length ≤ c2.length + 1) :=
  ⟨by decide, by decide,
    run_importer_batches_balanced [[10, 11], [12]] 2 (by decide) (by decide)⟩

/-! ## ImportCoordinator: the `xASL_GUI_Importer` slots

The coordinator state is the subset of `xASL_GUI_Importer` attributes the
worker-signal slots touch: `n_import_workers`, `import_parms`,
`import_summaries`, `failed_runs`, plus ghost fields recording how many times
`import_postprocessing` ran and which study-output files were written.
Summaries, failure records and parms payloads are abstracted as `Nat`.
`analysis_exists` models whether `<RawDir>/../analysis` exists on disk and
`widgets_enabled` the `set_widgets_on_or_off` state. -/
structure CoordState where
  n_import_workers : Int
  import_parms : Option Nat
  import_summaries : List Nat
  failed_runs : List Nat
  postprocessing_runs : Nat
  files_written : List String
  analysis_exists : Bool
  widgets_enabled : Bool
  deriving DecidableEq, Repr

/-- Signals a worker can deliver to the coordinator: `signal_send_summaries`
(`done`), `signal_send_errors` (`failed items`) and `signal_confirm_terminate`
(`cancel ack`).  `signal_update_progressbar` does not touch the modelled
state. -/
inductive CoordEvent
  | done (summaries : List Nat)
  | failedItems (failures : List Nat)
  | cancelAck
  deriving DecidableEq, Repr

/-- Study-output files written by `import_postprocessing` (lines 768-837):
nothing when the `analysis` directory was never made (early return); otherwise
the merged import log, the summary manifest from `create_import_summary`, and
the failure ledger `Import_Failed_Imports.txt` when failures were recorded. -/
def consolidationWrites (analysis_exists : Bool) (failed_runs : List Nat) : List String :=
  if analysis_exists then
    ["Import_Log.log", "import_summary"]
      ++ (if failed_runs.length > 0 then ["Import_Failed_Imports.txt"] else [])
  else []

/-- Embedding of `slot_is_ready_postprocessing` (lines 739-756): extend
`import_summaries`, decrement `n_import_workers`, and when no workers remain
outstanding (and `import_parms` is set) run `import_postprocessing`. -/
def slotIsReadyPostprocessing (st : CoordState) (summaries : List Nat) : CoordState :=
  let st1 := { st with
    import_summaries := st.import_summaries ++ summaries,
    n_import_workers := st.n_import_workers - 1 }
  if 0 < st1.n_import_workers ∨ st1.import_parms = none then st1
  else { st1 with
    postprocessing_runs := st1.postprocessing_runs + 1,
    files_written := st1.files_written
      ++ consolidationWrites st1.analysis_exists st1.failed_runs,
    widgets_enabled := true }

/-- Embedding of `slot_update_failed_runs_log` (lines 758-766). -/
def slotUpdateFailedRunsLog (st : CoordState) (failures : List Nat) : CoordState :=
  { st with failed_runs := st.failed_runs ++ failures }

/-- Embedding of `slot_cleanup_postterminate` (lines 717-737): decrement
`n_import_workers`, clear any partial summaries and failure records, and once
no workers remain outstanding (and `import_parms` is set) re-enable the
widgets; no study-output file is written on this path. -/
def slotCleanupPostterminate (st : CoordState) : CoordState :=
  let st1 := { st with
    n_import_workers := st.n_import_workers - 1,
    import_summaries := [],
    failed_runs := [] }
  if 0 < st1.n_import_workers ∨ st1.import_parms = none then st1
  else { st1 with widgets_enabled := true }

def coordStep (st : CoordState) : CoordEvent → CoordState
  | .done summaries => slotIsReadyPostprocessing st summaries
  | .failedItems failures => slotUpdateFailedRunsLog st failures
  | .cancelAck => slotCleanupPostterminate st

def coordRun (st : CoordState) (events : List CoordEvent) : CoordState :=
  events.foldl coordStep st

/-- Coordinator state right after `run_importer` launched `n` workers with
the import parameters `p`: `n_import_workers = n`, empty accumulators, widgets
disabled. -/
def coordStart (n : Nat) (p : Nat) (analysis_exists : Bool) : CoordState :=
  ⟨(n : Int), some p, [], [], 0, [], analysis_exists, false⟩

theorem coordRun_done_spec (p : Nat) (ae : Bool) (payloads : List (List Nat)) :
    ∀ (n : Nat) (sums fails : List Nat) (w : List String) (wid : Bool),
      payloads.length ≤ n →
      coordRun ⟨(n : Int), some p, sums, fails, 0, w, ae, wid⟩
          (payloads.map CoordEvent.done) =
        ⟨(n : Int) - payloads.length, some p, sums ++ payloads.flatten, fails,
          if payloads.length = n ∧ 0 < n then 1 else 0,
          w ++ (if payloads.length = n ∧ 0 < n then consolidationWrites ae fails else []),
          ae, if payloads.length = n ∧ 0 < n then true else wid⟩ := by
  induction payloads with
  | nil =>
      intro n sums fails w wid _
      have hcond : ¬ ((0 : Nat) = n ∧ 0 < n) := by omega
      simp [coordRun, hcond]
  | cons s rest ih =>
      intro n sums fails w wid hlen
      simp only [List.length_cons] at hlen
      have hn1 : 1 ≤ n := by omega
      simp only [List.map_cons, coordRun, List.foldl_cons]
      show coordRun (coordStep _ (CoordEvent.done s)) (rest.map CoordEvent.done) = _
      rw [coordStep]
      by_cases hlast : n = 1
      · subst hlast
        have hrest : rest = [] := by
          cases rest with
          | nil => rfl
          | cons _ _ => simp at hlen
        subst hrest
        simp [slotIsReadyPostprocessing, coordRun, consolidationWrites]
      · have h2 : 2 ≤ n := by omega
        have hstep : slotIsReadyPostprocessing
            ⟨(n : Int), some p, sums, fails, 0, w, ae, wid⟩ s =
            ⟨((n - 1 : Nat) : Int), some p, sums ++ s, fails, 0, w, ae, wid⟩ := by
          rw [slotIsReadyPostprocessing]
          have hpos : (0 : Int) < (n : Int) - 1 := by omega
          simp only [hpos, true_or, if_true]
          congr 1
          omega
        rw [hstep, ih (n - 1) (sums ++ s) fails w wid (by omega)]
        have hcast : ((n - 1 : Nat) : Int) - rest.length
            = (n : Int) - (rest.length + 1 : Nat) := by
          push_cast [Nat.cast_sub hn1]
          ring
        have hiff : (rest.length = n - 1 ∧ 0 < n - 1)
            ↔ ((s :: rest).length = n ∧ 0 < n) := by
          simp only [List.length_cons]
          omega
        simp only [List.length_cons, List.flatten_cons, List.append_assoc, hcast]
        rw [if_congr hiff rfl rfl, if_congr hiff rfl rfl, if_congr hiff rfl rfl]
        simp

/-- Claim C1: with `n ≥ 1` workers all signalling `done` (in any arrival
order, i.e. for any sequence of per-worker summary payloads), the done-slot
`slot_is_ready_postprocessing` decrements the outstanding-worker count with
each signal and runs `import_postprocessing` exactly once, upon the `n`-th
signal; after any earlier prefix of `k < n` signals it has not run. -/
theorem consolidation_exactly_once (n p : Nat) (ae : Bool)
    (payloads : List (List Nat)) (k : Nat)
    (hn : 1 ≤ n) (hlen : payloads.length = n) (hk : k < n) :
    (coordRun (coordStart n p ae) (payloads.map CoordEvent.done)).postprocessing_runs
        = 1 ∧
      (coordRun (coordStart n p ae) (payloads.map CoordEvent.done)).n_import_workers
        = (n : Int) - n ∧
      (coordRun (coordStart n p ae)
          ((payloads.take k).map CoordEvent.done)).postprocessing_runs = 0 := by
  have hfull := coordRun_done_spec p ae payloads n [] [] [] false (by omega)
  have htake : (payloads.take k).length = k := by
    rw [List.length_take]
    omega
  have hpre := coordRun_done_spec p ae (payloads.take k) n [] [] [] false (by omega)
  rw [coordStart, hfull, hpre]
  have hc1 : payloads.length = n ∧ 0 < n := ⟨hlen, by omega⟩
  have hc2 : ¬ ((payloads.take k).length = n ∧ 0 < n) := by
    rw [htake]
    omega
  simp [hc1, hc2, hlen]
  omega

theorem consolidation_exactly_once_witness :
    1 ≤ 3 ∧ ([[1], [2], [3]] : List (List Nat)).length = 3 ∧ 2 < 3 ∧
      ((coordRun (coordStart 3 0 true)
            ([[1], [2], [3]].map CoordEvent.done)).postprocessing_runs = 1 ∧
        (coordRun (coordStart 3 0 true)
            ([[1], [2], [3]].map CoordEvent.done)).n_import_workers = (3 : Int) - 3 ∧
        (coordRun (coordStart 3 0 true)
            ((([[1], [2], [3]] : List (List Nat)).take 2).map
              CoordEvent.done)).postprocessing_runs = 0) :=
  ⟨by decide, by decide, by decide,
    consolidation_exactly_once 3 0 true [[1], [2], [3]] 2
      (by decide) (by decide) (by decide)⟩

theorem coordRun_cancelAck_spec (k : Nat) :
    ∀ st : CoordState,
      (coordRun st (List.replicate k CoordEvent.cancelAck)).files_written
          = st.files_written ∧
        (coordRun st (List.replicate k CoordEvent.cancelAck)).postprocessing_runs
          = st.postprocessing_runs ∧
        (1 ≤ k →
          (coordRun st (List.replicate k CoordEvent.cancelAck)).import_summaries = []
            ∧ (coordRun st (List.replicate k CoordEvent.cancelAck)).failed_runs = []) := by
  induction k with
  | zero => intro st; simp [coordRun]
  | succ m ih =>
      intro st
      have hunfold : coordRun st (List.replicate (m + 1) CoordEvent.cancelAck)
          = coordRun (coordStep st CoordEvent.cancelAck)
              (List.replicate m CoordEvent.cancelAck) := by
        simp [coordRun, List.replicate_succ]
      rw [hunfold]
      rcases ih (coordStep st CoordEvent.cancelAck) with ⟨hw, hp, hclean⟩
      have hstepw : (coordStep st CoordEvent.cancelAck).files_written
          = st.files_written := by
        simp only [coordStep, slotCleanupPostterminate]
        split <;> rfl
      have hstepp : (coordStep st CoordEvent.cancelAck).postprocessing_runs
          = st.postprocessing_runs := by
        simp only [coordStep, slotCleanupPostterminate]
        split <;> rfl
      refine ⟨hw.trans hstepw, hp.trans hstepp, fun _ => ?_⟩
      cases m with
      | zero =>
          simp only [List.replicate_zero, coordRun, List.foldl_nil]
          simp only [coordStep, slotCleanupPostterminate]
          split <;> exact ⟨rfl, rfl⟩
      | succ m2 => exact hclean (by omega)

/-- Claim C2: if cancellation happens before any worker reports done and every
worker then delivers `signal_confirm_terminate`, the run of
`slot_cleanup_postterminate` discards all partial summaries and failure
records and writes zero study-output files and never runs
`import_postprocessing` — starting from any accumulated partial state. -/
theorem clean_cancellation_writes_nothing (n p : Nat) (ae : Bool)
    (sums fails : List Nat) (hn : 1 ≤ n) :
    (coordRun ⟨(n : Int), some p, sums, fails, 0, [], ae, false⟩
        (List.replicate n CoordEvent.cancelAck)).files_written = [] ∧
      (coordRun ⟨(n : Int), some p, sums, fails, 0, [], ae, false⟩
          (List.replicate n CoordEvent.cancelAck)).postprocessing_runs = 0 ∧
      (coordRun ⟨(n : Int), some p, sums, fails, 0, [], ae, false⟩
          (List.replicate n CoordEvent.cancelAck)).import_summaries = [] ∧
      (coordRun ⟨(n : Int), some p, sums, fails, 0, [], ae, false⟩
          (List.replicate n CoordEvent.cancelAck)).failed_runs = [] := by
  rcases coordRun_cancelAck_spec n
      ⟨(n : Int), some p, sums, fails, 0, [], ae, false⟩ with ⟨hw, hp, hclean⟩
  rcases hclean hn with ⟨hs, hf⟩
  exact ⟨hw, hp, hs, hf⟩

theorem clean_cancellation_writes_nothing_witness :
    1 ≤ 3 ∧
      ((coordRun ⟨(3 : Int), some 0, [7], [8], 0, [], true, false⟩
          (List.replicate 3 CoordEvent.cancelAck)).files_written = [] ∧
        (coordRun ⟨(3 : Int), some 0, [7], [8], 0, [], true, false⟩
            (List.replicate 3 CoordEvent.cancelAck)).postprocessing_runs = 0 ∧
        (coordRun ⟨(3 : Int), some 0, [7], [8], 0, [], true, false⟩
            (List.replicate 3 CoordEvent.cancelAck)).import_summaries = [] ∧
        (coordRun ⟨(3 : Int), some 0, [7], [8], 0, [], true, false⟩
            (List.replicate 3 CoordEvent.cancelAck)).failed_runs = []) :=
  ⟨by decide, clean_cancellation_writes_nothing 3 0 true [7] [8] (by decide)⟩

/-! ## ConversionWorker: `Importer_Worker.run` (lines 53-73)

`run` loops over the batch; at the top of each iteration it reads the shared
`_terminated` flag (set asynchronously from the control thread by
`slot_stop_import`) and, if clear, calls `converter.process_dcm_dir` and
records a summary or a failure plus one progress tick.  After the loop it
emits `signal_send_summaries` (and `signal_send_errors` when failures were
recorded) if the flag was never observed, else only
`signal_confirm_terminate`.  The flag turns from `False` to `True` at most
once and is only read between directories, so a run is determined by the
converter, the batch, and the index `c` of the first flag check that reads
`True` (`c > dirs.length` when the flag is not set before the final check;
`c = dirs.length` when it is set after the last directory but before the
final check). -/

inductive WSignal (σ ε : Type)
  | progress
  | sendSummaries (summaries : List σ)
  | sendErrors (failures : List ε)
  | confirmTerminate
  deriving DecidableEq, Repr

structure WState (α σ ε : Type) where
  import_summaries : List σ
  failed_runs : List ε
  converted : List α
  emitted : List (WSignal σ ε)
  deriving DecidableEq, Repr

def wInit : WState α σ ε := ⟨[], [], [], []⟩

/-- The `for dicom_dir in self.dcm_dirs` loop of `Importer_Worker.run`.  The
converter `conv` returns `Except.ok` with the summary data on success and
`Except.error` with the job description on failure; `c` counts down to the
first check that observes `_terminated = True`. -/
def workerLoop (conv : α → Except ε σ) : List α → Nat → WState α σ ε → WState α σ ε
  | [], _, st => st
  | _ :: rest, 0, st => workerLoop conv rest 0 st
  | d :: rest, c + 1, st =>
      match conv d with
      | .ok s =>
          workerLoop conv rest c
            { st with
              import_summaries := st.import_summaries ++ [s],
              converted := st.converted ++ [d],
              emitted := st.emitted ++ [WSignal.progress] }
      | .error e =>
          workerLoop conv rest c
            { st with
              failed_runs := st.failed_runs ++ [e],
              converted := st.converted ++ [d],
              emitted := st.emitted ++ [WSignal.progress] }

/-- Embedding of `Importer_Worker.run`: the loop followed by the terminal
emission (`signal_send_summaries` plus optional `signal_send_errors` when the
flag was never observed set, `signal_confirm_terminate` otherwise). -/
def workerRun (conv : α → Except ε σ) (dirs : List α) (c : Nat) : List (WSignal σ ε) :=
  let st := workerLoop conv dirs c wInit
  if c ≤ dirs.length then st.emitted ++ [WSignal.confirmTerminate]
  else
    st.emitted ++ [WSignal.sendSummaries st.import_summaries]
      ++ (if 0 < st.failed_runs.length then [WSignal.sendErrors st.failed_runs] else [])

def convOk (conv : α → Except ε σ) (d : α) : Option σ :=
  match conv d with
  | .ok s => some s
  | .error _ => none

def convErr (conv : α → Except ε σ) (d : α) : Option ε :=
  match conv d with
  | .ok _ => none
  | .error e => some e

theorem workerLoop_spec (conv : α → Except ε σ) (dirs : List α) :
    ∀ (c : Nat) (st : WState α σ ε),
      workerLoop conv dirs c st =
        ⟨st.import_summaries ++ (dirs.take c).filterMap (convOk conv),
          st.failed_runs ++ (dirs.take c).filterMap (convErr conv),
          st.converted ++ dirs.take c,
          st.emitted ++ List.replicate (dirs.take c).length (WSignal.progress)⟩ := by
  induction dirs with
  | nil => intro c st; simp [workerLoop]
  | cons d rest ih =>
      intro c st
      cases c with
      | zero => simp [workerLoop, ih 0 st]
      | succ c =>
          simp only [workerLoop]
          cases hd : conv d with
          | ok s =>
              simp [ih, List.take_succ_cons, List.filterMap_cons, convOk, convErr, hd,
                List.replicate_succ]
          | error e =>
              simp [ih, List.take_succ_cons, List.filterMap_cons, convOk, convErr, hd,
                List.replicate_succ]

theorem mem_workerLoop_emitted (conv : α → Except ε σ) (dirs : List α) (c : Nat)
    (x : WSignal σ ε) (hx : x ∈ (workerLoop conv dirs c (wInit (α := α))).emitted) :
    x = WSignal.progress := by
  rw [workerLoop_spec] at hx
  simp only [wInit, List.nil_append] at hx
  exact List.eq_of_mem_replicate hx

/-- Claim C5: if the cooperative-cancellation flag is observed set at check
index `c ≤ len(dirs)`, then exactly the first `c` directories of the batch
are passed to the converter (nothing after the flag is set), and the worker's
signal trace is progress ticks followed by exactly
`signal_confirm_terminate` — in particular `signal_send_summaries` (done) is
never emitted. -/
theorem worker_cancellation_stops_batch (conv : α → Except ε σ) (dirs : List α)
    (c : Nat) (h : c ≤ dirs.length) :
    (workerLoop conv dirs c (wInit (α := α))).converted = dirs.take c ∧
      workerRun conv dirs c
        = (workerLoop conv dirs c (wInit (α := α))).emitted
            ++ [WSignal.confirmTerminate] ∧
      ∀ s, WSignal.sendSummaries s ∉ workerRun conv dirs c := by
  refine ⟨?_, ?_, ?_⟩
  · rw [workerLoop_spec]
    simp [wInit]
  · rw [workerRun]
    simp [h]
  · intro s hmem
    rw [workerRun] at hmem
    simp only [h, if_pos] at hmem
    rcases List.mem_append.mp hmem with hm | hm
    · exact absurd (mem_workerLoop_emitted conv dirs c _ hm) (by simp)
    · simp at hm

theorem worker_cancellation_stops_batch_witness :
    1 ≤ ([5, 6, 7] : List Nat).length ∧
      ((workerLoop (fun d => (Except.ok d : Except Nat Nat)) [5, 6, 7] 1
            (wInit (α := Nat))).converted = ([5, 6, 7] : List Nat).take 1 ∧
        workerRun (fun d => (Except.ok d : Except Nat Nat)) [5, 6, 7] 1
          = (workerLoop (fun d => (Except.ok d : Except Nat Nat)) [5, 6, 7] 1
              (wInit (α := Nat))).emitted ++ [WSignal.confirmTerminate] ∧
        ∀ s, WSignal.sendSummaries s
          ∉ workerRun (fun d => (Except.ok d : Except Nat Nat)) [5, 6, 7] 1) :=
  ⟨by decide,
    worker_cancellation_stops_batch (fun d => (Except.ok d : Except Nat Nat))
      [5, 6, 7] 1 (by decide)⟩

def isDoneSignal : WSignal σ ε → Bool
  | .sendSummaries _ => true
  | _ => false

def isTerminateSignal : WSignal σ ε → Bool
  | .confirmTerminate => true
  | _ => false

def isErrorsSignal : WSignal σ ε → Bool
  | .sendErrors _ => true
  | _ => false

theorem countP_replicate (p : β → Bool) (n : Nat) (a : β) :
    (List.replicate n a).countP p = if p a then n else 0 := by
  induction n with
  | zero => simp
  | succ m ih =>
      rw [List.replicate_succ, List.countP_cons, ih]
      by_cases h : p a <;> simp [h]

/-- Claim C10 (implicit): every execution of `Importer_Worker.run` emits
exactly one terminal signal — `signal_confirm_terminate` precisely when the
termination flag was observed set (`c ≤ len(dirs)`), otherwise exactly one
`signal_send_summaries`; `signal_send_errors` is additionally emitted
precisely when the flag was never observed and at least one directory failed
to convert. -/
theorem worker_exactly_one_terminal_signal (conv : α → Except ε σ) (dirs : List α)
    (c : Nat) :
    (workerRun conv dirs c).countP isDoneSignal
        + (workerRun conv dirs c).countP isTerminateSignal = 1 ∧
      (workerRun conv dirs c).countP isTerminateSignal
        = (if c ≤ dirs.length then 1 else 0) ∧
      (workerRun conv dirs c).countP isErrorsSignal
        = (if c ≤ dirs.length then 0
            else if 0 < (dirs.filterMap (convErr conv)).length then 1 else 0) := by
  have hrep : ∀ q : WSignal σ ε → Bool, q WSignal.progress = false →
      ((workerLoop conv dirs c (wInit (α := α))).emitted).countP q = 0 := by
    intro q hq
    rw [workerLoop_spec]
    simp [wInit, countP_replicate, hq]
  by_cases h : c ≤ dirs.length
  · have htrace : workerRun conv dirs c
        = (workerLoop conv dirs c (wInit (α := α))).emitted
            ++ [WSignal.confirmTerminate] := by
      rw [workerRun]
      simp [h]
    rw [htrace]
    simp [List.countP_append, hrep, isDoneSignal, isTerminateSignal, isErrorsSignal,
      List.countP_cons, h]
  · have htake : dirs.take c = dirs := List.take_of_length_le (by omega)
    have hfails : (workerLoop conv dirs c (wInit (α := α))).failed_runs
        = dirs.filterMap (convErr conv) := by
      rw [workerLoop_spec]
      simp [wInit, htake]
    have htrace : workerRun conv dirs c
        = (workerLoop conv dirs c (wInit (α := α))).emitted
            ++ [WSignal.sendSummaries
                (workerLoop conv dirs c (wInit (α := α))).import_summaries]
            ++ (if 0 < (dirs.filterMap (convErr conv)).length
                then [WSignal.sendErrors (workerLoop conv dirs c (wInit (α := α))).failed_runs]
                else []) := by
      rw [workerRun]
      simp [h, hfails]
    rw [htrace]
    by_cases hf : 0 < (dirs.filterMap (convErr conv)).length <;>
      simp [List.countP_append, hrep, isDoneSignal, isTerminateSignal, isErrorsSignal,
        List.countP_cons, h, hf]

/-! ## Template validation and persistence: `get_directory_structure`,
`get_import_parms`, `import_postprocessing`, `get_nth_level_dirs` -/

/-- Python exceptions that the embedded fragments can raise. -/
inductive PyError
  | typeError
  | permissionError
  deriving DecidableEq, Repr

/-- The `for name in reversed(dirnames)` loop of `get_directory_structure`
(lines 600-628) followed by the Subject/Scan sanity check.  The interior-blank
branch evaluates `self.progbar_import["InvalidStructure_Blanks"]` while
building the `robust_qmsg` arguments; `QProgressBar` is not subscriptable, so
that expression raises `TypeError` instead of showing the message and
returning `(False, [])`. -/
def dirStructLoop : List String → Bool → List String → Except PyError (Bool × List String)
  | [], _, valid_dirs =>
      if "Subject" ∉ valid_dirs ∨ "Scan" ∉ valid_dirs then Except.ok (false, [])
      else Except.ok (true, valid_dirs.reverse)
  | name :: rest, encountered_nonblank, valid_dirs =>
      if name = "" then
        if encountered_nonblank then Except.error PyError.typeError
        else dirStructLoop rest encountered_nonblank valid_dirs
      else dirStructLoop rest true (valid_dirs ++ [name])

/-- Embedding of `get_directory_structure`: `dirnames` are the seven
level-lineedit texts in order; the loop walks them reversed. -/
def get_directory_structure (dirnames : List String) : Except PyError (Bool × List String) :=
  dirStructLoop dirnames.reverse false []

/-- Claim C7: evaluation of `get_directory_structure` on the failing input.  A
template with an interior Blank slot raises an unhandled `TypeError` (from
`self.progbar_import["InvalidStructure_Blanks"]`, a subscripted
`QProgressBar`) instead of reporting the named validation failure; trailing
Blank slots are stripped and a template missing Subject or Scan does return
the failure status `(False, [])` without spawning a worker. -/
theorem interior_blank_slot_raises_typeerror :
    get_directory_structure ["Subject", "", "Scan", "", "", "", ""]
        = Except.error PyError.typeError ∧
      get_directory_structure ["Subject", "Scan", "", "", "", "", ""]
        = Except.ok (true, ["Subject", "Scan"]) ∧
      get_directory_structure ["Visit", "Scan", "", "", "", "", ""]
        = Except.ok (false, []) ∧
      get_directory_structure ["Subject", "Visit", "", "", "", "", ""]
        = Except.ok (false, []) := by
  refine ⟨rfl, rfl, rfl, rfl⟩

/-- The persisted plan document of `get_import_parms` (lines 683-708). -/
structure ImportParms where
  RawDir : String
  Regex : List (Option String)
  DirectoryStructure : List String
  ScanAliases : List (String × String)
  OrderedRunAliases : List (String × String)
  deriving DecidableEq, Repr

/-- Embedding of `get_import_parms` (lines 683-708).  The sub-results of
`get_directory_structure`, `get_scan_aliases` and `get_run_aliases` are
passed in, as are the current regex attributes.  When every gate passes the
function builds the parameters and writes `<root_dir>/ImportConfig.json` with
a bare `open(...)` — no `try`/`except` — so a denied write is modelled as a
propagating `PermissionError`. -/
def get_import_parms (subject_regex run_regex scan_regex : Option String)
    (directory_status : Bool) (valid_directories : List String)
    (scanalias_status : Bool) (scan_aliases : List (String × String))
    (runalias_status : Bool) (run_aliases : List (String × String))
    (rawdir : String) (plan_write_denied : Bool) :
    Except PyError (Option ImportParms) :=
  if subject_regex = some "" ∨ scan_regex = some "" ∨ directory_status = false
      ∨ scanalias_status = false ∨ runalias_status = false then
    Except.ok none
  else if plan_write_denied then Except.error PyError.permissionError
  else
    Except.ok (some
      ⟨rawdir, [subject_regex, run_regex, scan_regex], valid_directories,
        scan_aliases, run_aliases⟩)

/-- `"#" * 50`, the rule `import_postprocessing` joins worker logs with. -/
def hashRule : String := String.mk (List.replicate 50 (Char.ofNat 35))

/-- Embedding of the merged-log write in `import_postprocessing` (lines
794-804): the primary `Import_Log_<timestamp>.log` write is wrapped in
`try`/`except PermissionError`, falling back to
`Import_Log_<timestamp>_backup.log` (joined with `"\n\n"` instead of the
hash rule).  Returns the filename and contents written. -/
def writeImportLog (primary_denied backup_denied : Bool) (now_str : String)
    (logs : List String) : Except PyError (String × String) :=
  if primary_denied = false then
    Except.ok ("Import_Log_" ++ now_str ++ ".log",
      String.intercalate ("\n" ++ hashRule ++ "\n") logs)
  else if backup_denied = false then
    Except.ok ("Import_Log_" ++ now_str ++ "_backup.log",
      String.intercalate "\n\n" logs)
  else Except.error PyError.permissionError

/-- Claim C8 counterexample: with every validation gate passing but the
filesystem denying the `ImportConfig.json` write, `get_import_parms` raises
an unhandled `PermissionError` — the run aborts instead of degrading to a
warning with the in-memory plan authoritative. -/
theorem plan_write_denied_aborts_run :
    get_import_parms (some "sub.+") (some "run.+") (some "scan.+")
        true ["Subject", "Scan"] true [("ASL4D", "ASL4D")] true []
        "raw" true
      = Except.error PyError.permissionError := by
  rfl

/-- Claim C8 (amended): a denied write of the merged import log falls back to
the backup filename and the run continues, whereas a denied write of the plan
document `ImportConfig.json` propagates a `PermissionError` out of
`get_import_parms` and aborts the run; the plan write succeeds only when
permitted. -/
theorem persistence_failure_behaviour (now_str : String) (logs : List String)
    (sr rr scr : Option String) (vd : List String)
    (sa ra : List (String × String)) (rd : String)
    (h1 : sr ≠ some "") (h2 : scr ≠ some "") :
    writeImportLog true false now_str logs
        = Except.ok ("Import_Log_" ++ now_str ++ "_backup.log",
            String.intercalate "\n\n" logs) ∧
      get_import_parms sr rr scr true vd true sa true ra rd true
        = Except.error PyError.permissionError ∧
      get_import_parms sr rr scr true vd true sa true ra rd false
        = Except.ok (some ⟨rd, [sr, rr, scr], vd, sa, ra⟩) := by
  refine ⟨rfl, ?_, ?_⟩ <;>
    simp [get_import_parms, h1, h2]

theorem persistence_failure_behaviour_witness :
    ((some "sub.+" : Option String) ≠ some "") ∧
      ((some "scan.+" : Option String) ≠ some "") ∧
      (writeImportLog true false "now" ["a", "b"]
          = Except.ok ("Import_Log_" ++ "now" ++ "_backup.log",
              String.intercalate "\n\n" ["a", "b"]) ∧
        get_import_parms (some "sub.+") (some "run.+") (some "scan.+")
            true ["Subject", "Scan"] true [] true [] "raw" true
          = Except.error PyError.permissionError ∧
        get_import_parms (some "sub.+") (some "run.+") (some "scan.+")
            true ["Subject", "Scan"] true [] true [] "raw" false
          = Except.ok (some ⟨"raw", [some "sub.+", some "run.+", some "scan.+"],
              ["Subject", "Scan"], [], []⟩)) :=
  ⟨by decide, by decide,
    persistence_failure_behaviour "now" ["a", "b"] (some "sub.+") (some "run.+")
      (some "scan.+") ["Subject", "Scan"] [] [] "raw" (by decide) (by decide)⟩

/-- Observable outcome of the enumeration part of `get_nth_level_dirs`
(lines 330-348). -/
inductive NthLevelOutcome
  | errorReportedAndCleared
  | clearedSilently
  | proceeded (basenames : List String)
  deriving DecidableEq, Repr

/-- Embedding of lines 330-348 of `get_nth_level_dirs`, parameterised by the
`(str(direc), str(direc.name))` pairs the glob produced.  When the glob
matches nothing, `directories, basenames = zip(*paths)` raises `ValueError`
(`zip()` of an empty argument list yields no items to unpack), which the
`except ValueError` arm turns into the `ImpossibleDirDepth` error dialog plus
a cleared lineedit; the later `if len(directories) == 0` arm would clear the
lineedit silently. -/
def get_nth_level_dirs_core (paths : List (String × String)) : NthLevelOutcome :=
  match paths with
  | [] => NthLevelOutcome.errorReportedAndCleared
  | p :: rest =>
      if (p :: rest).length = 0 then NthLevelOutcome.clearedSilently
      else NthLevelOutcome.proceeded ((p :: rest).map Prod.snd)

/-- Claim C9: an enumeration at a valid depth that matches nothing is NOT
handled silently — the empty glob result takes the `ValueError` path and
reports the `ImpossibleDirDepth` error; the dedicated silent-clear branch
(`if len(directories) == 0`) is unreachable for every input. -/
theorem empty_match_reports_error :
    get_nth_level_dirs_core [] = NthLevelOutcome.errorReportedAndCleared ∧
      ∀ paths : List (String × String),
        get_nth_level_dirs_core paths ≠ NthLevelOutcome.clearedSilently := by
  refine ⟨rfl, fun paths => ?_⟩
  cases paths with
  | nil => simp [get_nth_level_dirs_core]
  | cons p rest => simp [get_nth_level_dirs_core]

/-! ## StructureInferencer: `infer_regex` (lines 521-531)

`infer_regex` delegates to `tdda.rexpy.Extractor`, a third-party library that
ships no source in this repository.  Modelled from the spec: the extractor is
a pattern inferencer that normalizes its input internally (here: dedup then
sort, giving order independence) and generalizes each basename over token
classes — digit runs, letter runs and punctuation marks — merging examples
with the same token-class sequence into one alternation branch whose run
lengths carry the observed minimum/maximum. -/

/-- Token classes the inferencer generalizes over. -/
inductive TokKind
  | digitRun
  | letterRun
  | punctMark (c : Char)
  deriving DecidableEq, Repr

def classifyChar (c : Char) : TokKind :=
  if c.isDigit then TokKind.digitRun
  else if c.isAlpha then TokKind.letterRun
  else TokKind.punctMark c

/-- Split a character list into maximal runs of one token class, with run
lengths. -/
def tokenizeChars : List Char → List (TokKind × Nat)
  | [] => []
  | c :: rest =>
      match tokenizeChars rest with
      | [] => [(classifyChar c, 1)]
      | (k, n) :: t =>
          if classifyChar c = k then (k, n + 1) :: t
          else (classifyChar c, 1) :: (k, n) :: t

def tokenize (s : String) : List (TokKind × Nat) := tokenizeChars s.data

/-- The token-class sequence of a basename, keying its alternation branch. -/
def tokKey (s : String) : List TokKind := (tokenize s).map Prod.fst

/-- One generalized run: token class with minimal and maximal observed
length. -/
abbrev TokRange := TokKind × Nat × Nat

def newBranch (s : String) : List TokRange :=
  (tokenize s).map (fun p => (p.1, p.2, p.2))

def widenFn (r : TokRange) (t : TokKind × Nat) : TokRange :=
  (r.1, min r.2.1 t.2, max r.2.2 t.2)

def widenBranch (b : List TokRange) (s : String) : List TokRange :=
  List.zipWith widenFn b (tokenize s)

/-- Fold one normalized example into the pattern: widen the branch with the
same token-class sequence, or append a fresh branch. -/
def insertExample (pat : List (List TokKind × List TokRange)) (s : String) :
    List (List TokKind × List TokRange) :=
  match pat with
  | [] => [(tokKey s, newBranch s)]
  | (k, b) :: rest =>
      if k = tokKey s then (k, widenBranch b s) :: rest
      else (k, b) :: insertExample rest s

/-- Internal normalization of the example list: duplicates removed, then
sorted, so the result depends only on the underlying set. -/
def canonicalExamples (l : List String) : List String :=
  l.dedup.insertionSort (· ≤ ·)

def inferPattern (l : List String) : List (List TokKind × List TokRange) :=
  (canonicalExamples l).foldl insertExample []

def renderKind : TokKind → String
  | TokKind.digitRun => "[0-9]"
  | TokKind.letterRun => "[A-Za-z]"
  | TokKind.punctMark c => String.mk [c]

def renderRange (r : TokRange) : String :=
  renderKind r.1 ++ "\x7b" ++ toString r.2.1 ++ "," ++ toString r.2.2 ++ "\x7d"

def renderBranch (b : List TokRange) : String :=
  String.join (b.map renderRange)

/-- Embedding of `infer_regex`: the rendered pattern string, one alternation
branch per token-class sequence. -/
def infer_regex (l : List String) : String :=
  String.intercalate "|" ((inferPattern l).map (fun kb => renderBranch kb.2))

/-- A token-run sequence fits a branch when classes agree positionally and
every run length lies in the branch's range. -/
def fitsRuns : List TokRange → List (TokKind × Nat) → Bool
  | [], [] => true
  | r :: b, t0 :: t =>
      decide (r.1 = t0.1) && decide (r.2.1 ≤ t0.2) && decide (t0.2 ≤ r.2.2)
        && fitsRuns b t
  | _, _ => false

/-- A basename matches the inferred pattern when its token runs fit some
alternation branch. -/
def patternMatches (pat : List (List TokKind × List TokRange)) (s : String) : Bool :=
  pat.any (fun kb => fitsRuns kb.2 (tokenize s))

/-- Every entry's branch carries exactly the token classes of its key. -/
def PatWF (pat : List (List TokKind × List TokRange)) : Prop :=
  ∀ kb ∈ pat, kb.2.map (fun r : TokRange => r.1) = kb.1

theorem fitsRuns_new : ∀ t : List (TokKind × Nat),
    fitsRuns (t.map (fun p => (p.1, p.2, p.2))) t = true := by
  intro t
  induction t with
  | nil => rfl
  | cons p t ih => simp [fitsRuns, ih]

theorem fitsRuns_widen_preserves :
    ∀ (b : List TokRange) (t t2 : List (TokKind × Nat)),
      b.map (fun r : TokRange => r.1) = t2.map Prod.fst →
      fitsRuns b t = true →
      fitsRuns (List.zipWith widenFn b t2) t = true := by
  intro b
  induction b with
  | nil =>
      intro t t2 _ hf
      cases t with
      | nil => simp [fitsRuns]
      | cons x t => simp [fitsRuns] at hf
  | cons r b ih =>
      intro t t2 hk hf
      cases t with
      | nil => simp [fitsRuns] at hf
      | cons t0 t =>
          cases t2 with
          | nil => simp at hk
          | cons q t2 =>
              simp only [List.map_cons, List.cons.injEq] at hk
              simp only [fitsRuns, Bool.and_eq_true, decide_eq_true_eq] at hf
              simp only [List.zipWith_cons_cons, fitsRuns, widenFn,
                Bool.and_eq_true, decide_eq_true_eq]
              refine ⟨⟨⟨hf.1.1.1, ?_⟩, ?_⟩, ih t t2 hk.2 hf.2⟩
              · exact le_trans (min_le_left _ _) hf.1.1.2
              · exact le_trans hf.1.2 (le_max_left _ _)

theorem fitsRuns_widen_self :
    ∀ (b : List TokRange) (t2 : List (TokKind × Nat)),
      b.map (fun r : TokRange => r.1) = t2.map Prod.fst →
      fitsRuns (List.zipWith widenFn b t2) t2 = true := by
  intro b
  induction b with
  | nil =>
      intro t2 hk
      have : t2 = [] := by
        cases t2 with
        | nil => rfl
        | cons q t2 => simp at hk
      subst this
      rfl
  | cons r b ih =>
      intro t2 hk
      cases t2 with
      | nil => simp at hk
      | cons q t2 =>
          simp only [List.map_cons, List.cons.injEq] at hk
          simp only [List.zipWith_cons_cons, fitsRuns, widenFn,
            Bool.and_eq_true, decide_eq_true_eq]
          exact ⟨⟨⟨hk.1, min_le_right _ _⟩, le_max_right _ _⟩, ih t2 hk.2⟩

theorem zipWith_widenFn_kinds :
    ∀ (b : List TokRange) (t2 : List (TokKind × Nat)),
      (List.zipWith widenFn b t2).map (fun r : TokRange => r.1)
        = (b.take t2.length).map (fun r : TokRange => r.1) := by
  intro b
  induction b with
  | nil => intro t2; simp
  | cons r b ih =>
      intro t2
      cases t2 with
      | nil => simp
      | cons q t2 => simp [List.zipWith_cons_cons, widenFn, ih t2]

theorem newBranch_kinds (s : String) :
    (newBranch s).map (fun r : TokRange => r.1) = tokKey s := by
  simp [newBranch, tokKey, List.map_map]

theorem insertExample_wf (s : String) :
    ∀ pat, PatWF pat → PatWF (insertExample pat s) := by
  intro pat
  induction pat with
  | nil =>
      intro _ kb hkb
      simp only [insertExample, List.mem_singleton] at hkb
      subst hkb
      exact newBranch_kinds s
  | cons e rest ih =>
      intro h
      obtain ⟨k, b⟩ := e
      have hhead : b.map (fun r : TokRange => r.1) = k := h (k, b) (by simp)
      have hrest : PatWF rest := fun kb hkb => h kb (List.mem_cons_of_mem _ hkb)
      by_cases hk : k = tokKey s
      · intro kb hkb
        simp only [insertExample, if_pos hk, List.mem_cons] at hkb
        rcases hkb with rfl | hkb
        · have hlen : b.length = (tokenize s).length := by
            have := congrArg List.length hhead
            simp only [List.length_map] at this
            rw [this, hk, tokKey, List.length_map]
          simp only [widenBranch, zipWith_widenFn_kinds, ← hlen, List.take_length]
          exact hhead
        · exact hrest kb hkb
      · intro kb hkb
        simp only [insertExample, if_neg hk, List.mem_cons] at hkb
        rcases hkb with rfl | hkb
        · exact hhead
        · exact ih hrest kb hkb

theorem tokKey_eq_map_fst (s : String) : tokKey s = (tokenize s).map Prod.fst := rfl

theorem insert_preserves_match (s2 s : String) :
    ∀ pat, PatWF pat → patternMatches pat s = true →
      patternMatches (insertExample pat s2) s = true := by
  intro pat
  induction pat with
  | nil =>
      intro _ hm
      simp [patternMatches] at hm
  | cons e rest ih =>
      intro h hm
      obtain ⟨k, b⟩ := e
      have hhead : b.map (fun r : TokRange => r.1) = k := h (k, b) (by simp)
      have hrest : PatWF rest := fun kb hkb => h kb (List.mem_cons_of_mem _ hkb)
      simp only [patternMatches, List.any_cons, Bool.or_eq_true] at hm
      by_cases hk : k = tokKey s2
      · simp only [insertExample, if_pos hk, patternMatches, List.any_cons,
          Bool.or_eq_true]
        rcases hm with hm | hm
        · left
          refine fitsRuns_widen_preserves b (tokenize s) (tokenize s2) ?_ hm
          rw [hhead, hk, tokKey_eq_map_fst]
        · right
          exact hm
      · simp only [insertExample, if_neg hk, patternMatches, List.any_cons,
          Bool.or_eq_true]
        rcases hm with hm | hm
        · left
          exact hm
        · right
          exact ih hrest hm

theorem insert_matches_self (s : String) :
    ∀ pat, PatWF pat → patternMatches (insertExample pat s) s = true := by
  intro pat
  induction pat with
  | nil =>
      intro _
      simp only [insertExample, patternMatches, List.any_cons, List.any_nil,
        Bool.or_false]
      exact fitsRuns_new (tokenize s)
  | cons e rest ih =>
      intro h
      obtain ⟨k, b⟩ := e
      have hhead : b.map (fun r : TokRange => r.1) = k := h (k, b) (by simp)
      have hrest : PatWF rest := fun kb hkb => h kb (List.mem_cons_of_mem _ hkb)
      by_cases hk : k = tokKey s
      · simp only [insertExample, if_pos hk, patternMatches, List.any_cons,
          Bool.or_eq_true]
        left
        refine fitsRuns_widen_self b (tokenize s) ?_
        rw [hhead, hk, tokKey_eq_map_fst]
      · simp only [insertExample, if_neg hk, patternMatches, List.any_cons,
          Bool.or_eq_true]
        right
        exact ih hrest

theorem foldl_insert_spec (l : List String) :
    ∀ pat, PatWF pat →
      PatWF (l.foldl insertExample pat) ∧
        (∀ s, patternMatches pat s = true →
          patternMatches (l.foldl insertExample pat) s = true) ∧
        (∀ s ∈ l, patternMatches (l.foldl insertExample pat) s = true) := by
  induction l with
  | nil =>
      intro pat h
      exact ⟨h, fun s hs => hs, by simp⟩
  | cons s0 l ih =>
      intro pat h
      have h1 : PatWF (insertExample pat s0) := insertExample_wf s0 pat h
      obtain ⟨hwf, hpres, hall⟩ := ih (insertExample pat s0) h1
      simp only [List.foldl_cons]
      refine ⟨hwf, ?_, ?_⟩
      · intro s hs
        exact hpres s (insert_preserves_match s0 s pat h hs)
      · intro s hs
        rcases List.mem_cons.mp hs with rfl | hs2
        · exact hpres s (insert_matches_self s pat h)
        · exact hall s hs2

theorem canonicalExamples_perm_eq (l1 l2 : List String) (hperm : l1.Perm l2) :
    canonicalExamples l1 = canonicalExamples l2 := by
  have hd : l1.dedup.Perm l2.dedup := hperm.dedup
  refine List.eq_of_perm_of_sorted ?_
    (List.sorted_insertionSort _ _) (List.sorted_insertionSort _ _)
  exact (List.perm_insertionSort _ _).trans
    (hd.trans (List.perm_insertionSort _ _).symm)

theorem mem_canonicalExamples (l : List String) (s : String) (hs : s ∈ l) :
    s ∈ canonicalExamples l := by
  rw [canonicalExamples, List.mem_insertionSort, List.mem_dedup]
  exact hs

/-- Claim C6: `infer_regex` is deterministic regardless of input ordering —
two permutations of the same basename set produce the identical pattern
string — and the inferred pattern matches every input basename (each
basename's token runs fit its alternation branch). -/
theorem infer_regex_deterministic_and_total (l1 l2 : List String) (s : String)
    (_hne : l1 ≠ []) (hperm : l1.Perm l2) (hs : s ∈ l1) :
    infer_regex l1 = infer_regex l2 ∧
      patternMatches (inferPattern l1) s = true := by
  constructor
  · rw [infer_regex, infer_regex, inferPattern, inferPattern,
      canonicalExamples_perm_eq l1 l2 hperm]
  · have hwf : PatWF ([] : List (List TokKind × List TokRange)) := by
      intro kb hkb
      simp at hkb
    obtain ⟨_, _, hall⟩ := foldl_insert_spec (canonicalExamples l1) [] hwf
    exact hall s (mem_canonicalExamples l1 s hs)

theorem infer_regex_deterministic_and_total_witness :
    (["sub01", "sub2"] : List String) ≠ [] ∧
      (["sub01", "sub2"] : List String).Perm ["sub2", "sub01"] ∧
      "sub01" ∈ (["sub01", "sub2"] : List String) ∧
      (infer_regex ["sub01", "sub2"] = infer_regex ["sub2", "sub01"] ∧
        patternMatches (inferPattern ["sub01", "sub2"]) "sub01" = true) :=
  ⟨by decide, by decide, by decide,
    infer_regex_deterministic_and_total ["sub01", "sub2"] ["sub2", "sub01"]
      "sub01" (by decide) (by decide) (by decide)⟩

end ExploreASL
